import Mathlib

/-!
Verification development for the ks-lib arbitrary-precision core
(`src/bigint.cpp`, `src/bigint.hpp`, `src/decimal.cpp`, `src/decimal.hpp`).

The C++ code is shallowly embedded:
* a `BigInt` becomes `BigIntR`: a little-endian list of base-10^9 limbs
  (`std::vector<Digit> data_`) plus a sign flag (`bool negative_`);
* a `Decimal` becomes `DecimalR`: a `BigIntR` mantissa plus an `Int` exponent;
* `uint64_t` arithmetic that can wrap is modelled with explicit `% 2^64`
  (`U`); where a value provably stays below the word size the arithmetic is
  kept as plain `Nat` arithmetic and a comment says so;
* `size_t` index arithmetic that can wrap (`n - 2` for `n < 2`) is modelled
  with explicit `% 2^64`; an out-of-bounds `std::vector` read (undefined
  behaviour in C++) is modelled as reading the default value 0;
* the process-terminating `check(...)` failures, `.value()` calls on error
  results, and loops with no termination guarantee are modelled with
  `Option`: `none` means "no value is ever produced";
* C++ strings are modelled as `List Nat` of character codes.
-/

namespace KsLib

/-- `BigInt::BASE = 1000000000` (`src/bigint.hpp:21`). -/
def B : Nat := 1000000000

/-- Modulus of `uint64_t` (`DoubleDigit`) and of `size_t`. -/
def U : Nat := 18446744073709551616

/-- `uint64_t` addition. -/
def add64 (x y : Nat) : Nat := (x + y) % U

/-- `uint64_t` multiplication. -/
def mul64 (x y : Nat) : Nat := (x * y) % U

/-- `uint64_t` subtraction (wraps around on underflow). -/
def sub64 (x y : Nat) : Nat := (x % U + U - y % U) % U

/-- `size_t` value of `k - 2` (wraps around for `k < 2`). -/
def stIdx2 (k : Nat) : Nat := (k + U - 2) % U

/-- Character strings are modelled as lists of character codes. -/
abbrev Str := List Nat

/-- Code of one character. -/
def ch (c : Char) : Nat := c.toNat

/-- Code list of a Lean string literal. -/
def strOf (s : String) : Str := s.data.map ch

/-- The repository's `Result<T, E>` carrier (`src/result.hpp`). -/
inductive Result (E A : Type) where
  | ok (a : A)
  | err (e : E)
deriving DecidableEq, Repr

/-- `Result::value()` as used after a success check; `none` models the
process-terminating path taken when `.value()` is called on an error. -/
def resToOption {E A : Type} : Result E A → Option A
  | .ok a => some a
  | .err _ => none

/-- The embedded `ks::BigInt` (`src/bigint.hpp:137-139`): little-endian
base-10^9 limbs `data_` and sign flag `negative_`. -/
structure BigIntR where
  data : List Nat
  negative : Bool
deriving DecidableEq, Repr

/-- Mathematical value of the magnitude (little-endian base-10^9 digits). -/
def bvalue (x : BigIntR) : Nat := x.data.foldr (fun d acc => d + B * acc) 0

/-- Trailing-zero stripping done by `BigInt::trim` (`src/bigint.cpp:10-21`):
pop most-significant zero limbs while more than one limb remains; an empty
vector becomes the single limb 0. -/
def stripTrailingZeros (l : List Nat) : List Nat :=
  let r := l.reverse.dropWhile (fun x => decide (x = 0))
  if r = [] then [0] else r.reverse

/-- `BigInt::trim` (`src/bigint.cpp:10-21`): strip most-significant zero
limbs and clear the sign of a zero value. -/
def btrim (x : BigIntR) : BigIntR :=
  let d := stripTrailingZeros x.data
  ⟨d, if d = [0] then false else x.negative⟩

/-- `BigInt::is_zero` (`src/bigint.cpp:468-470`): one limb holding 0. -/
def isZero (x : BigIntR) : Bool := decide (x.data = [0])

/-- Most-significant-first comparison of two equal-length reversed limb
lists: the loop of `BigInt::abs_less` (`src/bigint.cpp:27-31`). -/
def lexLtRev : List Nat → List Nat → Bool
  | x :: xs, y :: ys => if x ≠ y then decide (x < y) else lexLtRev xs ys
  | _, _ => false

/-- `BigInt::abs_less` (`src/bigint.cpp:23-33`). -/
def absLess (a b : BigIntR) : Bool :=
  if a.data.length ≠ b.data.length then decide (a.data.length < b.data.length)
  else lexLtRev a.data.reverse b.data.reverse

/-- Trailing pure-carry iterations of the addition loop
(`src/bigint.cpp:42-48` once both operands are exhausted), written with a
structural fuel argument so that it evaluates in the kernel; each step
divides the carry by `B`, so a fuel equal to the carry always suffices. -/
def carryOutF : Nat → Nat → List Nat
  | 0, _ => []
  | f + 1, c => if c = 0 then [] else (c % B) :: carryOutF f (c / B)

/-- Trailing pure-carry output with sufficient fuel. -/
def carryOut (c : Nat) : List Nat := carryOutF c c

/-- Iterations of the addition loop of `BigInt::unsigned_add`
(`src/bigint.cpp:40-48`) once the first operand is exhausted. -/
def addTail : List Nat → Nat → List Nat
  | [], c => carryOut c
  | b :: bs, c => ((b + c) % B) :: addTail bs ((b + c) / B)

/-- Limb-wise addition loop of `BigInt::unsigned_add`
(`src/bigint.cpp:40-48`).  All intermediate sums are at most
`(B-1) + (B-1) + carry`, far below `2^64`, so plain `Nat` arithmetic is an
exact model of the `uint64_t` arithmetic. -/
def addLimbs : List Nat → List Nat → Nat → List Nat
  | [], bs, c => addTail bs c
  | a :: as, [], c => ((a + c) % B) :: addLimbs as [] ((a + c) / B)
  | a :: as, b :: bs, c => ((a + b + c) % B) :: addLimbs as bs ((a + b + c) / B)

/-- `BigInt::unsigned_add` (`src/bigint.cpp:35-51`). -/
def unsignedAdd (a b : BigIntR) : BigIntR := btrim ⟨addLimbs a.data b.data 0, false⟩

/-- Limb-wise subtraction loop of `BigInt::unsigned_sub`
(`src/bigint.cpp:59-71`): `diff = da - db - borrow` in `uint64_t`, with the
wraparound test `diff > da` detecting a borrow; the final
`static_cast<Digit>` is exact because the stored value is below `B`. -/
def subLimbs : List Nat → List Nat → Nat → List Nat
  | [], _, _ => []
  | a :: as, bs, brw =>
    let d0 := sub64 (sub64 a (bs.headD 0)) brw
    if d0 > a then (add64 d0 B) :: subLimbs as bs.tail 1
    else d0 :: subLimbs as bs.tail 0

/-- `BigInt::unsigned_sub` (`src/bigint.cpp:53-74`). -/
def unsignedSub (a b : BigIntR) : BigIntR := btrim ⟨subLimbs a.data b.data 0, false⟩

/-- Inner loop of `BigInt::unsigned_mul` (`src/bigint.cpp:83-92`): products
fit in `uint64_t` (`(B-1)^2 + (B-1) + carry < 2^64`), so plain `Nat`
arithmetic is exact; stores are below `B`, so the `Digit` casts are exact.
The final carry is added into one limb without propagation, exactly as
`result.data_[i + b.data_.size()] += carry` does. -/
def mulInner : List Nat → List Nat → Nat → Nat → Nat → List Nat
  | acc, [], pos, _, c => if c = 0 then acc else acc.set pos (acc.getD pos 0 + c)
  | acc, b :: bs, pos, ai, c =>
    let prod := ai * b + acc.getD pos 0 + c
    mulInner (acc.set pos (prod % B)) bs (pos + 1) ai (prod / B)

/-- Outer loop of `BigInt::unsigned_mul` (`src/bigint.cpp:82-93`). -/
def mulOuter : List Nat → List Nat → Nat → List Nat → List Nat
  | acc, [], _, _ => acc
  | acc, a :: as, i, bs => mulOuter (mulInner acc bs i a 0) as (i + 1) bs

/-- `BigInt::unsigned_mul` (`src/bigint.cpp:76-96`). -/
def unsignedMul (a b : BigIntR) : BigIntR :=
  btrim ⟨mulOuter (List.replicate (a.data.length + b.data.length) 0) a.data 0 b.data, false⟩

/-- Scaling loop of the normalization step of `BigInt::unsigned_div_mod`
(`src/bigint.cpp:117-129`): multiply every limb by `d` propagating the
carry, returning the final carry.  `carry + x*d < B + B*B < 2^64`, so plain
`Nat` arithmetic is exact. -/
def scaleCarry (d : Nat) : List Nat → Nat → (List Nat × Nat)
  | [], c => ([], c)
  | x :: xs, c =>
    let t := c + x * d
    let r := scaleCarry d xs (t / B)
    ((t % B) :: r.1, r.2)

/-- The `qhat` correction loop of `BigInt::unsigned_div_mod`
(`src/bigint.cpp:152-155`), with all arithmetic taken modulo `2^64` exactly
as the `uint64_t` source computes it.  `qhat` strictly decreases, so a fuel
of the initial `qhat` always suffices (the condition fails at `qhat = 0`). -/
def adjustQhat (vtop v2 utop u1 u2 : Nat) : Nat → Nat → Nat
  | 0, qh => qh
  | f + 1, qh =>
    let rhs := add64 (mul64 (sub64 (utop * B + u1) (mul64 qh vtop)) B) u2
    if mul64 qh v2 > rhs then adjustQhat vtop v2 utop u1 u2 f (qh - 1) else qh

/-- The multiply-and-subtract loop of `BigInt::unsigned_div_mod`
(`src/bigint.cpp:158-172`), iterating `i` over `0 .. n-1` with state
`(u, carry, borrow)`; the `uint64_t` wraparound borrow test is modelled
with `sub64`/`add64`. -/
def mulSubLoop (v : List Nat) (j qh : Nat) :
    Nat → Nat → List Nat → Nat → Nat → (List Nat × Nat × Nat)
  | 0, _, u, c, brw => (u, c, brw)
  | k + 1, i, u, c, brw =>
    let prod := qh * v.getD i 0 + c
    let c2 := prod / B
    let pd := prod % B
    let s0 := sub64 (sub64 (u.getD (j + i) 0) pd) brw
    if s0 > u.getD (j + i) 0 then
      mulSubLoop v j qh k (i + 1) (u.set (j + i) (add64 s0 B)) c2 1
    else
      mulSubLoop v j qh k (i + 1) (u.set (j + i) s0) c2 0

/-- The add-back loop of `BigInt::unsigned_div_mod`
(`src/bigint.cpp:186-191`), iterating `i` over `0 .. n-1` with state
`(u, carry)`; sums stay below `2B < 2^32`, so plain `Nat` arithmetic is
exact. -/
def addBackLoop (v : List Nat) (j : Nat) :
    Nat → Nat → List Nat → Nat → (List Nat × Nat)
  | 0, _, u, c => (u, c)
  | k + 1, i, u, c =>
    let s := u.getD (j + i) 0 + v.getD i 0 + c
    addBackLoop v j k (i + 1) (u.set (j + i) (s % B)) (s / B)

/-- One iteration (index `j`) of the main loop of
`BigInt::unsigned_div_mod` (`src/bigint.cpp:142-196`) on the state
`(u, quotient)`.  The reads `v[n-2]` and `u[j+n-2]` use the `size_t` value
of the index (`stIdx2`), which for `n = 1` wraps to `2^64 - 1`; such an
out-of-bounds vector read is undefined behaviour in C++ and is modelled
here as the default value 0. -/
def divStep (v : List Nat) (n : Nat) (uq : List Nat × List Nat) (j : Nat) :
    List Nat × List Nat :=
  let u := uq.1
  let q := uq.2
  let vtop := v.getLastD 0
  let utop := u.getD (j + n) 0
  let u1 := u.getD (j + n - 1) 0
  let qhat0 := if utop ≥ vtop then B - 1 else (utop * B + u1) / vtop
  let v2 := v.getD (stIdx2 n) 0
  let u2 := u.getD (stIdx2 (j + n)) 0
  let qhat := adjustQhat vtop v2 utop u1 u2 qhat0 qhat0
  let r := mulSubLoop v j qhat n 0 u 0 0
  let u := r.1
  let carry := r.2.1
  let borrow := r.2.2
  let fs0 := sub64 (sub64 (u.getD (j + n) 0) carry) borrow
  let fin : List Nat × Nat :=
    if fs0 > u.getD (j + n) 0 then (u.set (j + n) (add64 fs0 B), 1)
    else (u.set (j + n) fs0, 0)
  let u := fin.1
  if fin.2 = 1 then
    let rq := addBackLoop v j n 0 u 0
    let u2l := rq.1.set (j + n) (rq.1.getD (j + n) 0 + rq.2)
    (u2l, q.set j (qhat - 1))
  else (u, q.set j qhat)

/-- The de-scaling loop applied to the remainder
(`src/bigint.cpp:205-214`), processing limbs most-significant first (the
input here is the reversed limb list); `carry * B + x < B^2 < 2^64`, so
plain `Nat` arithmetic is exact. -/
def unscaleRev (d : Nat) : List Nat → Nat → List Nat
  | [], _ => []
  | x :: xs, c => ((c * B + x) / d) :: unscaleRev d xs ((c * B + x) % d)

/-- `BigInt::unsigned_div_mod` (`src/bigint.cpp:98-217`).  `none` models
the process-terminating `check` on a zero divisor.  Note that `m` is taken
from the dividend length before normalization, and the quotient is sized
`m - n + 1` in `size_t` arithmetic, exactly as the source does. -/
def unsignedDivMod (a b : BigIntR) : Option (BigIntR × BigIntR) :=
  if isZero b then none
  else if absLess a b then some (⟨[0], false⟩, a)
  else
    let u0 := a.data
    let v0 := b.data
    let m := u0.length - 1
    let n := v0.length
    let d := B / (v0.getLastD 0 + 1)
    let su := scaleCarry d u0 0
    let u := if d > 1 then (if su.2 ≠ 0 then su.1 ++ [su.2] else su.1) else u0
    let v := if d > 1 then (scaleCarry d v0 0).1 else v0
    let qlen := (m + 1 + U - n) % U
    let r := ((List.range qlen).reverse).foldl (divStep v n) (u, List.replicate qlen 0)
    let quotient := btrim ⟨r.2, false⟩
    let rem0 := btrim ⟨r.1.take n, false⟩
    let rem :=
      if d > 1 then btrim ⟨(unscaleRev d rem0.data.reverse 0).reverse, false⟩
      else rem0
    some (quotient, rem)

/-- Bounds check for every vector index used by one iteration of the main
loop of `unsigned_div_mod` (`src/bigint.cpp:142-196`): reads/writes of
`u[j+i]`, `u[j+n]`, `u[j+n-1]`, `u[j+n-2]` and `v[i]`, `v[n-1]`, `v[n-2]`,
the last of each group with `size_t` index arithmetic. -/
def divStepOk (ulen vlen n j : Nat) : Bool :=
  decide (j + n < ulen) && decide (j + n - 1 < ulen) &&
  decide (stIdx2 (j + n) < ulen) &&
  decide (n - 1 < vlen) && decide (stIdx2 n < vlen) &&
  (List.range n).all (fun i => decide (j + i < ulen) && decide (i < vlen))

/-- Whether every limb index used inside the main loop of
`unsigned_div_mod` is within the bounds of its vector, for the same `u`,
`v`, `n` and loop range that `unsignedDivMod` uses. -/
def divmodAccessOk (a b : BigIntR) : Bool :=
  if isZero b then true
  else if absLess a b then true
  else
    let u0 := a.data
    let v0 := b.data
    let m := u0.length - 1
    let n := v0.length
    let d := B / (v0.getLastD 0 + 1)
    let su := scaleCarry d u0 0
    let u := if d > 1 then (if su.2 ≠ 0 then su.1 ++ [su.2] else su.1) else u0
    let v := if d > 1 then (scaleCarry d v0 0).1 else v0
    let qlen := (m + 1 + U - n) % U
    (List.range qlen).all (divStepOk u.length v.length n)

/-- Limb decomposition used by the integer constructors
(`src/bigint.hpp:34-37`, `48-51`): repeated division by `B`, written with
a structural fuel argument (the value shrinks by a factor `B` each step,
so a fuel equal to the value always suffices). -/
def natLimbsF : Nat → Nat → List Nat
  | 0, _ => []
  | f + 1, v => if v = 0 then [] else (v % B) :: natLimbsF f (v / B)

/-- Limb decomposition with sufficient fuel. -/
def natLimbs (v : Nat) : List Nat := natLimbsF v v

/-- The `BigInt(uint64_t)` constructor (`src/bigint.hpp:30-39`). -/
def mkU64 (v : Nat) : BigIntR :=
  if v = 0 then ⟨[0], false⟩ else ⟨natLimbs v, false⟩

/-- The `BigInt(int64_t)` constructor (`src/bigint.hpp:42-53`). -/
def mkI64 (v : Int) : BigIntR :=
  if v.natAbs = 0 then ⟨[0], false⟩
  else ⟨natLimbs v.natAbs, if v < 0 then true else false⟩

/-- `BigInt::abs` (`src/bigint.cpp:457-461`). -/
def babs (x : BigIntR) : BigIntR := ⟨x.data, false⟩

/-- `BigInt::sign` (`src/bigint.cpp:463-466`). -/
def bsign (x : BigIntR) : Int :=
  if isZero x then 0 else if x.negative then -1 else 1

/-- `BigInt::operator==` (`src/bigint.cpp:309-312`). -/
def beqB (a b : BigIntR) : Bool :=
  decide (a.negative = b.negative) && decide (a.data = b.data)

/-- `BigInt::operator<` (`src/bigint.cpp:318-331`). -/
def blt (a b : BigIntR) : Bool :=
  if a.negative ≠ b.negative then a.negative
  else if a.data.length ≠ b.data.length then
    (if a.negative then decide (b.data.length < a.data.length)
     else decide (a.data.length < b.data.length))
  else
    (if a.negative then lexLtRev b.data.reverse a.data.reverse
     else lexLtRev a.data.reverse b.data.reverse)

/-- `BigInt::operator>` (`src/bigint.cpp:337-339`). -/
def bgt (a b : BigIntR) : Bool := blt b a

/-- Unary `BigInt::operator-` (`src/bigint.cpp:345-351`). -/
def bneg (x : BigIntR) : BigIntR :=
  if isZero x then x else ⟨x.data, !x.negative⟩

/-- `BigInt::operator+` (`src/bigint.cpp:353-371`). -/
def badd (a b : BigIntR) : BigIntR :=
  if a.negative = b.negative then
    let r := unsignedAdd a b
    ⟨r.data, a.negative⟩
  else if absLess a b then
    let r := unsignedSub b a
    ⟨r.data, b.negative⟩
  else
    let r := unsignedSub a b
    ⟨r.data, a.negative⟩

/-- `BigInt::operator-` (`src/bigint.cpp:373-375`). -/
def bsub (a b : BigIntR) : BigIntR := badd a (bneg b)

/-- `BigInt::operator*` (`src/bigint.cpp:377-382`). -/
def bmul (a b : BigIntR) : BigIntR :=
  if isZero a || isZero b then mkI64 0
  else
    let r := unsignedMul a b
    ⟨r.data, xor a.negative b.negative⟩

/-- `BigInt::operator/` (`src/bigint.cpp:384-392`); `none` models the
process-terminating division-by-zero `check`. -/
def bdiv (a b : BigIntR) : Option BigIntR :=
  if isZero b then none
  else (unsignedDivMod (babs a) (babs b)).map
    (fun p => btrim ⟨p.1.data, xor a.negative b.negative⟩)

/-- `BigInt::operator%` (`src/bigint.cpp:394-406`); `none` models the
process-terminating modulo-by-zero `check`. -/
def bmod (a b : BigIntR) : Option BigIntR :=
  if isZero b then none
  else (unsignedDivMod (babs a) (babs b)).map
    (fun p =>
      let r0 := if a.negative && !isZero p.2 then bsub (babs b) p.2 else p.2
      btrim ⟨r0.data, a.negative⟩)

/-- The square-and-multiply loop of `BigInt::pow` (`src/bigint.cpp:447-453`)
with state `(result, base, exp)`; the loop halves the exponent with
`exp / BigInt(2)` and has no intrinsic termination guarantee, so it takes a
fuel argument: `none` means the fuel ran out (or a division check fired). -/
def powLoop : Nat → BigIntR → BigIntR → BigIntR → Option BigIntR
  | 0, _, _, _ => none
  | f + 1, result, base, e =>
    if isZero e then some result
    else
      let r2 := if (e.data.headD 0) % 2 = 1 then bmul result base else result
      match bdiv e (mkI64 2) with
      | none => none
      | some e2 => powLoop f r2 (bmul base base) e2

/-- `BigInt::pow` (`src/bigint.cpp:433-455`). -/
def bpow (x e : BigIntR) (fuel : Nat) : Option (Result Str BigIntR) :=
  if e.negative then some (.err (strOf "exponent cannot be negative"))
  else if isZero e then some (.ok (mkI64 1))
  else if isZero x then some (.ok (mkI64 0))
  else (powLoop fuel (mkI64 1) x e).map .ok

/-- The loop of `BigInt::fast_pow_unsigned` (`src/bigint.cpp:246-252`) with
state `(result, cur_base, cur_exp)`, fuelled like `powLoop`. -/
def fastPowLoop : Nat → BigIntR → BigIntR → BigIntR → Option BigIntR
  | 0, _, _, _ => none
  | f + 1, result, base, e =>
    if isZero e then some result
    else
      let r2 := if (e.data.headD 0) % 2 = 1 then bmul result base else result
      match bdiv e (mkI64 2) with
      | none => none
      | some e2 => fastPowLoop f r2 (bmul base base) e2

/-- `BigInt::fast_pow_unsigned` (`src/bigint.cpp:236-254`). -/
def fastPow (base e : BigIntR) (fuel : Nat) : Option (Result Str BigIntR) :=
  if bsign e < 0 then
    some (.err (strOf "negative exponent not allowed in fast_pow_unsigned"))
  else if isZero e then some (.ok (mkI64 1))
  else (fastPowLoop fuel (mkI64 1) base e).map .ok

/-- `BigInt::to_uint64` (`src/bigint.cpp:493-505`).  The accumulation
`val = val * BASE + data_[i]` is `uint64_t` arithmetic, modelled mod `2^64`. -/
def toUInt64 (x : BigIntR) : Result Str Nat :=
  if x.negative then .err (strOf "negative value cannot be converted to uint64_t")
  else if bgt x (mkU64 18446744073709551615) then
    .err (strOf "value exceeds uint64_t max")
  else .ok (x.data.reverse.foldl (fun v d => add64 (mul64 v B) d) 0)

/-- `BigInt::to_int64` (`src/bigint.cpp:507-527`).  The non-negative branch
checks the range and converts, but the source omits the `return` of the
converted value, so no value is produced on that path: modelled as `none`.
`none` also models `.value()` on an error result (a fatal check). -/
def toInt64 (x : BigIntR) : Option (Result Str Int) :=
  if x.negative then
    if bgt (babs x) (mkU64 9223372036854775808) then
      some (.err (strOf "value exceeds int64_t range"))
    else
      match toUInt64 (babs x) with
      | .err _ => none
      | .ok av =>
        if av = 9223372036854775808 then some (.ok (-9223372036854775808))
        else some (.ok (-(Int.ofNat av)))
  else
    if bgt x (mkI64 9223372036854775807) then
      some (.err (strOf "value exceeds int64_t max"))
    else
      match toUInt64 x with
      | .err e => some (.err e)
      | .ok _ => none

/-- Whether a character code is a decimal digit (`*q >= '0' && *q <= '9'`,
`src/bigint.cpp:297`). -/
def isDig (c : Nat) : Bool := decide (48 ≤ c) && decide (c ≤ 57)

/-- Numeric value accumulated by `val = val * 10 + (*q - '0')`
(`src/bigint.cpp:300`); the chunk length is at most 9, so the value stays
below `10^9 < 2^32` and the `uint32_t` arithmetic is exact. -/
def valOf (cs : Str) : Nat := cs.foldl (fun a c => a * 10 + (c - 48)) 0

/-- Parse one chunk of at most 9 digit characters (`src/bigint.cpp:295-301`):
fails on any non-digit character. -/
def parseChunk (cs : Str) : Result Str Nat :=
  if cs.all isDig then .ok (valOf cs) else .err (strOf "invalid digit")

/-- The chunking loop of `BigInt::from_string` (`src/bigint.cpp:292-304`):
take 9-character chunks from the least-significant end, each becoming one
limb (least-significant limb first).  Written with a structural fuel
argument; each step removes 9 characters, so a fuel equal to the length
always suffices (the zero-fuel arm is only reached on the empty string,
where it agrees with the `length ≤ 9` arm). -/
def chunkParseF : Nat → Str → Result Str (List Nat)
  | 0, p =>
    (match parseChunk p with
     | .err e => .err e
     | .ok v => .ok [v])
  | f + 1, p =>
    if p.length ≤ 9 then
      match parseChunk p with
      | .err e => .err e
      | .ok v => .ok [v]
    else
      match parseChunk (p.drop (p.length - 9)) with
      | .err e => .err e
      | .ok v =>
        match chunkParseF f (p.take (p.length - 9)) with
        | .err e => .err e
        | .ok rest => .ok (v :: rest)

/-- The chunking loop with sufficient fuel. -/
def chunkParse (p : Str) : Result Str (List Nat) := chunkParseF p.length p

/-- The digit part of `BigInt::from_string` after the sign has been
handled (`src/bigint.cpp:280-306`): skip leading zeros, parse chunks,
trim. -/
def bfromDigits (neg : Bool) (p0 : Str) : Result Str BigIntR :=
  let p := p0.dropWhile (fun c => decide (c = 48))
  if p = [] then .ok ⟨[0], false⟩
  else
    match chunkParse p with
    | .err e => .err e
    | .ok limbs => .ok (btrim ⟨limbs, neg⟩)

/-- `BigInt::from_string` (`src/bigint.cpp:267-307`). -/
def bfromString (s : Str) : Result Str BigIntR :=
  match s with
  | [] => .err (strOf "empty string")
  | c0 :: rest =>
    if c0 = ch '-' then
      match rest with
      | [] => .err (strOf "missing digits after minus sign")
      | _ => bfromDigits true rest
    else bfromDigits false s

/-- Decimal rendering of one `Digit` (`std::to_string`,
`src/bigint.cpp:477-479`), written with a structural fuel argument (the
value shrinks by a factor 10 each step, so any fuel above the value
suffices; fuel irrelevance is proved below). -/
def natToCharsF : Nat → Nat → Str
  | 0, _ => []
  | f + 1, n => if n < 10 then [48 + n] else natToCharsF f (n / 10) ++ [48 + n % 10]

/-- Decimal rendering with sufficient fuel. -/
def natToChars (n : Nat) : Str := natToCharsF (n + 1) n

/-- Zero padding of a limb rendering to 9 characters
(`src/bigint.cpp:481-483`). -/
def pad9 (cs : Str) : Str :=
  if cs.length < 9 then List.replicate (9 - cs.length) 48 ++ cs else cs

/-- The lower-limb printing loop of `BigInt::to_string`
(`src/bigint.cpp:478-485`): limbs from second-most-significant downward,
each zero-padded to 9 characters and appended. -/
def printTail (l : List Nat) : Str :=
  l.foldl (fun acc d => acc ++ pad9 (natToChars d)) []

/-- `BigInt::to_string` (`src/bigint.cpp:472-487`). -/
def btoString (x : BigIntR) : Str :=
  if isZero x then [48]
  else
    (if x.negative then [ch '-'] else []) ++
      natToChars (x.data.getLastD 0) ++ printTail x.data.dropLast.reverse

/-- The embedded `ks::Decimal` (`src/decimal.hpp:111-113`): a `BigInt`
mantissa and an `int` exponent, value `mantissa * 10^exponent`.  `int`
arithmetic on exponents never overflows on the paths modelled here, so the
exponent is an unbounded `Int`. -/
structure DecimalR where
  mantissa : BigIntR
  exponent : Int
deriving DecidableEq, Repr

/-- The loop of `Decimal::normalize` (`src/decimal.cpp:16-19`): while
`mantissa % 10 == 0`, divide the mantissa by 10 and bump the exponent.
The loop has no intrinsic termination guarantee, so it takes fuel; `none`
means no value is ever produced. -/
def normalizeLoop : Nat → BigIntR → Int → Option (BigIntR × Int)
  | 0, _, _ => none
  | f + 1, m, e =>
    match bmod m (mkI64 10) with
    | none => none
    | some r =>
      if beqB r (mkI64 0) then
        match bdiv m (mkI64 10) with
        | none => none
        | some m2 => normalizeLoop f m2 (e + 1)
      else some (m, e)

/-- `Decimal::normalize` (`src/decimal.cpp:10-20`). -/
def normalizeD (fuel : Nat) (x : DecimalR) : Option DecimalR :=
  if isZero x.mantissa then some ⟨x.mantissa, 0⟩
  else (normalizeLoop fuel x.mantissa x.exponent).map (fun p => ⟨p.1, p.2⟩)

/-- Scale one mantissa by `10^scale` via `fast_pow_unsigned(...).value()`
(`src/decimal.cpp:38-44`); `none` models `.value()` on an error (fatal)
or exhausted fuel. -/
def scaleMant (fuel : Nat) (m : BigIntR) (scale : Int) : Option BigIntR :=
  if scale > 0 then
    match fastPow (mkI64 10) (mkI64 scale) fuel with
    | some (.ok v) => some (bmul m v)
    | _ => none
  else some m

/-- `Decimal::align_exponent` (`src/decimal.cpp:29-46`): align both
mantissas to the smaller exponent. -/
def alignExponent (fuel : Nat) (a b : DecimalR) :
    Option (Int × BigIntR × BigIntR) :=
  let commonExp := min a.exponent b.exponent
  match scaleMant fuel a.mantissa (a.exponent - commonExp) with
  | none => none
  | some am =>
    match scaleMant fuel b.mantissa (b.exponent - commonExp) with
    | none => none
    | some bm => some (commonExp, am, bm)

/-- `Decimal::div` (`src/decimal.cpp:311-331`): align, scale the dividend
by `10^n`, divide exactly, give the quotient exponent `-n`, normalize.
`none` models the fatal checks (zero divisor, negative precision) and
fuel exhaustion. -/
def ddivD (fuel : Nat) (a b : DecimalR) (n : Int) : Option DecimalR :=
  if isZero b.mantissa then none
  else if n < 0 then none
  else
    match alignExponent fuel a b with
    | none => none
    | some (_, am, bm) =>
      match fastPow (mkI64 10) (mkI64 n) fuel with
      | some (.ok scale) =>
        let dividend := bmul am scale
        match bdiv dividend bm with
        | none => none
        | some q => normalizeD fuel ⟨q, -n⟩
      | _ => none

/-- `Decimal::to_string` (`src/decimal.cpp:189-223`). -/
def dtoString (x : DecimalR) : Str :=
  if isZero x.mantissa then [48]
  else
    let mstr := btoString (babs x.mantissa)
    let neg := bsign x.mantissa < 0
    let res :=
      if x.exponent ≥ 0 then mstr ++ List.replicate x.exponent.toNat 48
      else
        let ae := (-x.exponent).toNat
        if ae ≥ mstr.length then
          [48, ch '.'] ++ List.replicate (ae - mstr.length) 48 ++ mstr
        else
          mstr.take (mstr.length - ae) ++ [ch '.'] ++ mstr.drop (mstr.length - ae)
    let res2 :=
      if res.contains (ch '.') then
        let r := (res.reverse.dropWhile (fun c => decide (c = 48))).reverse
        if r.getLastD 0 = ch '.' then r.dropLast else r
      else res
    if neg ∧ res2 ≠ [48] then ch '-' :: res2 else res2

/-- `strtol` as called on the already-validated exponent digits of
`Decimal::from_string` (`src/decimal.cpp:139-142`): optional sign followed
by digits.  The cast of the `long` result to `int` is applied by the
caller. -/
def strtolParse (cs : Str) : Int :=
  if cs.headD 0 = ch '-' then -(Int.ofNat (valOf cs.tail))
  else if cs.headD 0 = ch '+' then Int.ofNat (valOf cs.tail)
  else Int.ofNat (valOf cs)

/-- Two's-complement truncation of a `long` to `int`
(`static_cast<int>(e)`, `src/decimal.cpp:142`). -/
def wrap32 (x : Int) : Int := (x + 2147483648) % 4294967296 - 2147483648

/-- Mantissa/exponent assembly tail of `Decimal::from_string`
(`src/decimal.cpp:137-161`), after all validation has succeeded.
`dotSplit = some (intPart, fracPart)` when a decimal point was present. -/
def dfromParts (fuel : Nat) (negative : Bool)
    (dotSplit : Option (Str × Str)) (intPart : Str) (expStr : Str) :
    Option (Result Str DecimalR) :=
  let expVal : Int := if expStr ≠ [] then wrap32 (strtolParse expStr) else 0
  let mantRes :=
    match dotSplit with
    | none => bfromString intPart
    | some (ip, fp) => bfromString ((if ip = [] then [48] else ip) ++ fp)
  match mantRes with
  | .err _ => none
  | .ok mant0 =>
    let expVal2 :=
      match dotSplit with
      | none => expVal
      | some (_, fp) => expVal - fp.length
    let mant := if negative then bneg mant0 else mant0
    (normalizeD fuel ⟨mant, expVal2⟩).map .ok

/-- `Decimal::from_string` (`src/decimal.cpp:54-162`): sign, optional
`e`/`E` exponent suffix, optional single decimal point, digit validation,
then mantissa construction and normalization. -/
def dfromString (fuel : Nat) (s : Str) : Option (Result Str DecimalR) :=
  if s = [] then some (.err (strOf "empty string"))
  else
    let signed := s.headD 0 = ch '-' ∨ s.headD 0 = ch '+'
    let negative := s.headD 0 = ch '-'
    let p := if signed then s.tail else s
    if signed ∧ p = [] then some (.err (strOf "sign only"))
    else
      let eidx := p.findIdx? (fun c => decide (c = ch 'e') || decide (c = ch 'E'))
      let mantStr := match eidx with | some i => p.take i | none => p
      let expStr := match eidx with | some i => p.drop (i + 1) | none => []
      if eidx.isSome ∧ expStr = [] then some (.err (strOf "exponent missing"))
      else
        let expSigned := expStr.headD 0 = ch '-' ∨ expStr.headD 0 = ch '+'
        let expDigits := if expSigned then expStr.tail else expStr
        if eidx.isSome ∧ expSigned ∧ expDigits = [] then
          some (.err (strOf "exponent sign only"))
        else if eidx.isSome ∧ ¬ expDigits.all isDig then
          some (.err (strOf "invalid exponent digit"))
        else if mantStr = [] then some (.err (strOf "no digits"))
        else
          match mantStr.findIdx? (fun c => decide (c = ch '.')) with
          | some dp =>
            let intPart := mantStr.take dp
            let fracPart := mantStr.drop (dp + 1)
            if fracPart.contains (ch '.') then
              some (.err (strOf "multiple decimal points"))
            else if ¬ intPart.all isDig then
              some (.err (strOf "invalid integer digit"))
            else if fracPart = [] then
              some (.err (strOf "decimal point without fractional digits"))
            else if ¬ fracPart.all isDig then
              some (.err (strOf "invalid fractional digit"))
            else dfromParts fuel negative (some (intPart, fracPart)) intPart expStr
          | none =>
            if ¬ mantStr.all isDig then some (.err (strOf "invalid digit"))
            else dfromParts fuel negative none mantStr expStr

/-- The rounding carry loop of `Decimal::div_round`
(`src/decimal.cpp:441-449`) on the reversed retained fraction digits:
increment the lowest digit, turning 9s into 0s while the carry persists;
returns the digits and whether the carry survived. -/
def carryRev : Str → (Str × Bool)
  | [] => ([], true)
  | c :: rest =>
    if c = ch '9' then
      let r := carryRev rest
      (48 :: r.1, r.2)
    else ((c + 1) :: rest, false)

/-- `Decimal::div_round` (`src/decimal.cpp:410-476`): divide to `n+1`
fractional digits, then round half-up away from zero by string surgery on
the rendered quotient.  `none` models the fatal checks, `.value()` on an
error result, and fuel exhaustion. -/
def divRound (fuel : Nat) (a b : DecimalR) (n : Int) : Option DecimalR :=
  if isZero b.mantissa then none
  else if n < 0 then none
  else
    match ddivD fuel a b (n + 1) with
    | none => none
    | some temp =>
      let str := dtoString temp
      match str.findIdx? (fun c => decide (c = ch '.')) with
      | none => some temp
      | some dot =>
        let intPart := str.take dot
        let frac0 := str.drop (dot + 1)
        let nn := n.toNat
        let frac :=
          if frac0.length < nn + 1 then
            frac0 ++ List.replicate (nn + 1 - frac0.length) 48
          else frac0
        if frac.getD nn 0 ≥ ch '5' then
          let newFrac0 := if nn > 0 then frac.take nn else []
          let cr := carryRev newFrac0.reverse
          let newFrac := cr.1.reverse
          let carry := cr.2
          match resToOption (bfromString intPart) with
          | none => none
          | some iv0 =>
            let iv :=
              if carry then
                (if intPart.headD 0 = ch '-' then bsub iv0 (mkI64 1)
                 else badd iv0 (mkI64 1))
              else iv0
            let intStr := btoString iv
            let resultStr :=
              if nn > 0 ∧ newFrac ≠ List.replicate nn 48 then
                intStr ++ [ch '.'] ++ newFrac
              else intStr
            match dfromString fuel resultStr with
            | some (.ok dres) => some dres
            | _ => none
        else
          let resultStr :=
            if nn > 0 then intPart ++ [ch '.'] ++ frac.take nn else intPart
          match dfromString fuel resultStr with
          | some (.ok dres) => some dres
          | _ => none

/-- Pure (validation-free) version of the chunking loop of
`BigInt::from_string` (`src/bigint.cpp:292-304`); on all-digit input
`chunkParse` returns exactly these limbs.  Fuelled like `chunkParseF`. -/
def chunkValsF : Nat → Str → List Nat
  | 0, p => [valOf p]
  | f + 1, p =>
    if p.length ≤ 9 then [valOf p]
    else valOf (p.drop (p.length - 9)) :: chunkValsF f (p.take (p.length - 9))

/-- The pure chunking with sufficient fuel. -/
def chunkVals (p : Str) : List Nat := chunkValsF p.length p

/-- A valid decimal literal in the sense of claim C10: an optional leading
minus sign followed by at least one decimal digit. -/
def validLiteral (s : Str) : Bool :=
  match s with
  | [] => false
  | c :: rest =>
    if c = ch '-' then decide (rest ≠ []) && rest.all isDig
    else (c :: rest).all isDig

/-- Spec-side canonical form of a valid decimal literal, following the
words of the claim: the literal with leading zeros stripped and the sign
normalized (a value of zero prints as `"0"` without a sign). -/
def specCanonical (s : Str) : Str :=
  match s with
  | [] => []
  | c :: rest =>
    if c = ch '-' then
      (if rest.dropWhile (fun x => decide (x = 48)) = [] then [48]
       else ch '-' :: rest.dropWhile (fun x => decide (x = 48)))
    else
      (if (c :: rest).dropWhile (fun x => decide (x = 48)) = [] then [48]
       else (c :: rest).dropWhile (fun x => decide (x = 48)))

/-! ### Fuel irrelevance for the fuelled recursions -/

theorem natToCharsF_irrel : ∀ f g n : Nat, n < f → n < g →
    natToCharsF f n = natToCharsF g n := by
  intro f
  induction f with
  | zero => intro g n hf; omega
  | succ f ih =>
    intro g n hf hg
    cases g with
    | zero => omega
    | succ g =>
      simp only [natToCharsF]
      by_cases h10 : n < 10
      · rw [if_pos h10, if_pos h10]
      · rw [if_neg h10, if_neg h10]
        have hdn : n / 10 < n := Nat.div_lt_self (by omega) (by omega)
        rw [ih g (n / 10) (by omega) (by omega)]

theorem natToChars_lt {n : Nat} (h : n < 10) : natToChars n = [48 + n] := by
  unfold natToChars
  simp only [natToCharsF]
  rw [if_pos h]

theorem natToChars_ge {n : Nat} (h : 10 ≤ n) :
    natToChars n = natToChars (n / 10) ++ [48 + n % 10] := by
  have hdn : n / 10 < n := Nat.div_lt_self (by omega) (by omega)
  show natToCharsF (n + 1) n = natToChars (n / 10) ++ [48 + n % 10]
  simp only [natToCharsF]
  rw [if_neg (by omega)]
  rw [natToCharsF_irrel n (n / 10 + 1) (n / 10) (by omega) (by omega)]
  rfl

theorem chunkValsF_irrel : ∀ f g : Nat, ∀ p : Str, p.length ≤ f → p.length ≤ g →
    chunkValsF f p = chunkValsF g p := by
  intro f
  induction f with
  | zero =>
    intro g p hf hg
    cases g with
    | zero => rfl
    | succ g =>
      simp only [chunkValsF]
      rw [if_pos (by omega)]
  | succ f ih =>
    intro g p hf hg
    cases g with
    | zero =>
      simp only [chunkValsF]
      rw [if_pos (by omega)]
    | succ g =>
      simp only [chunkValsF]
      by_cases h9 : p.length ≤ 9
      · rw [if_pos h9, if_pos h9]
      · rw [if_neg h9, if_neg h9]
        have hlt : (p.take (p.length - 9)).length = p.length - 9 := by
          rw [List.length_take]
          omega
        rw [ih g (p.take (p.length - 9)) (by omega) (by omega)]

theorem chunkVals_le {p : Str} (h : p.length ≤ 9) : chunkVals p = [valOf p] := by
  unfold chunkVals
  by_cases hz : p.length = 0
  · rw [hz]
    rfl
  · obtain ⟨k, hl⟩ : ∃ k, p.length = k + 1 := ⟨p.length - 1, by omega⟩
    rw [hl]
    simp only [chunkValsF]
    rw [if_pos h]

theorem chunkVals_gt {p : Str} (h : 9 < p.length) :
    chunkVals p =
      valOf (p.drop (p.length - 9)) :: chunkVals (p.take (p.length - 9)) := by
  unfold chunkVals
  obtain ⟨k, hl⟩ : ∃ k, p.length = k + 1 := ⟨p.length - 1, by omega⟩
  have hlt : (p.take (p.length - 9)).length = p.length - 9 := by
    rw [List.length_take]
    omega
  rw [hl]
  simp only [chunkValsF]
  rw [if_neg (by omega)]
  rw [chunkValsF_irrel k (p.take (p.length - 9)).length (p.take (p.length - 9))
    (by omega) (by omega)]
  rw [hl]

/-! ### Lemmas about digit strings and `valOf` -/

theorem valOf_nil : valOf [] = 0 := rfl

theorem valOf_append_singleton (xs : Str) (c : Nat) :
    valOf (xs ++ [c]) = valOf xs * 10 + (c - 48) := by
  simp [valOf, List.foldl_append]

theorem valOf_foldl_mono (t : Str) :
    ∀ a : Nat, a ≤ List.foldl (fun x c => x * 10 + (c - 48)) a t := by
  induction t with
  | nil => intro a; simp
  | cons c t ih =>
    intro a
    simp only [List.foldl_cons]
    exact le_trans (by omega) (ih (a * 10 + (c - 48)))

theorem valOf_head_pos (c : Nat) (t : Str) (h : 49 ≤ c) : 1 ≤ valOf (c :: t) := by
  have hm := valOf_foldl_mono t (0 * 10 + (c - 48))
  simp only [valOf, List.foldl_cons]
  omega

theorem natToChars_valOf (p : Str) :
    p ≠ [] → p.all isDig = true → p.headD 0 ≠ 48 → natToChars (valOf p) = p := by
  induction p using List.reverseRecOn with
  | nil => intro h; exact absurd rfl h
  | append_singleton xs c ih =>
    intro _ hdig hhd
    have hxc : xs.all isDig = true ∧ isDig c = true := by
      simp only [List.all_append, Bool.and_eq_true, List.all_cons, List.all_nil,
        Bool.and_true] at hdig
      exact hdig
    have hc : 48 ≤ c ∧ c ≤ 57 := by
      have := hxc.2
      simp [isDig] at this
      omega
    cases xs with
    | nil =>
      simp only [List.nil_append]
      have hv : valOf [c] = c - 48 := by simp [valOf]
      have hlt : valOf [c] < 10 := by omega
      rw [natToChars_lt hlt]
      rw [hv]
      have : 48 + (c - 48) = c := by omega
      rw [this]
    | cons x xt =>
      have hxhd : (x :: xt).headD 0 ≠ 48 := by simpa using hhd
      have hih := ih (by simp) hxc.1 hxhd
      have hx49 : 49 ≤ x := by
        have hxd : isDig x = true := by
          have := hxc.1
          simp [List.all_cons] at this
          simp [this.1]
        simp [isDig] at hxd
        simp at hxhd
        omega
      have hvx : 1 ≤ valOf (x :: xt) := valOf_head_pos x xt hx49
      rw [valOf_append_singleton]
      set a := valOf (x :: xt) with ha
      have h10 : 10 ≤ a * 10 + (c - 48) := by omega
      rw [natToChars_ge h10]
      have hdiv : (a * 10 + (c - 48)) / 10 = a := by
        rw [Nat.add_comm, Nat.add_mul_div_right _ _ (by omega : (0:Nat) < 10)]
        omega
      have hmod : (a * 10 + (c - 48)) % 10 = c - 48 := by
        rw [Nat.add_comm, Nat.add_mul_mod_self_right]
        omega
      rw [hdiv, hmod, hih]
      have : 48 + (c - 48) = c := by omega
      rw [this]

theorem valOf_cons_zero (t : Str) : valOf (48 :: t) = valOf t := by
  simp [valOf]

theorem valOf_replicate_zero_append (k : Nat) (r : Str) :
    valOf (List.replicate k 48 ++ r) = valOf r := by
  induction k with
  | zero => simp
  | succ k ih => simpa [List.replicate_succ, valOf_cons_zero] using ih

theorem all_of_subset {l m : Str} (hs : l ⊆ m) (h : m.all isDig = true) :
    l.all isDig = true := by
  rw [List.all_eq_true] at h ⊢
  exact fun x hx => h x (hs hx)

theorem dropWhile_zero_headD {l : Str}
    (h : l.dropWhile (fun c => decide (c = 48)) ≠ []) :
    (l.dropWhile (fun c => decide (c = 48))).headD 0 ≠ 48 := by
  have hw := List.head_dropWhile_not (fun c => decide (c = 48)) l h
  have hh : (l.dropWhile (fun c => decide (c = 48))).headD 0 =
      (l.dropWhile (fun c => decide (c = 48))).head h := by
    rw [List.headD_eq_head?_getD, List.head?_eq_head h]
    rfl
  rw [hh]
  simpa using hw

theorem dropWhile_zero_all {l : Str} (h : l.all isDig = true) :
    (l.dropWhile (fun c => decide (c = 48))).all isDig = true := by
  exact all_of_subset (List.dropWhile_subset _) h

theorem getLastD_irrel {l : List Nat} (h : l ≠ []) (d e : Nat) :
    l.getLastD d = l.getLastD e := by
  rw [List.getLastD_eq_getLast?, List.getLastD_eq_getLast?,
    List.getLast?_eq_getLast l h]
  rfl

theorem stripTrailingZeros_eq_self {l : List Nat} (hne : l ≠ [])
    (hlast : l.getLastD 0 ≠ 0) : stripTrailingZeros l = l := by
  unfold stripTrailingZeros
  have hrev : l.reverse ≠ [] := by simpa using hne
  obtain ⟨x, t, hx⟩ : ∃ x t, l.reverse = x :: t := by
    cases hr : l.reverse with
    | nil => exact absurd hr hrev
    | cons x t => exact ⟨x, t, rfl⟩
  have hx48 : x ≠ 0 := by
    have h1 : l.reverse.head? = some x := by rw [hx]; rfl
    rw [List.head?_reverse] at h1
    have h2 : l.getLastD 0 = x := by
      rw [List.getLastD_eq_getLast?, h1]
      rfl
    rw [h2] at hlast
    exact hlast
  rw [hx, List.dropWhile_cons_of_neg (by simpa using hx48)]
  have hne2 : x :: t ≠ [] := by simp
  rw [if_neg hne2, ← hx, List.reverse_reverse]

theorem btrim_eq_self {l : List Nat} {neg : Bool} (hne : l ≠ [])
    (hlast : l.getLastD 0 ≠ 0) : btrim ⟨l, neg⟩ = ⟨l, neg⟩ := by
  unfold btrim
  simp only
  rw [stripTrailingZeros_eq_self hne hlast]
  have : l ≠ [0] := by
    intro h
    rw [h] at hlast
    simp at hlast
  rw [if_neg this]

/-! ### Lemmas about chunking and printing -/

theorem chunkVals_ne_nil (p : Str) : chunkVals p ≠ [] := by
  by_cases h : p.length ≤ 9
  · rw [chunkVals_le h]
    simp
  · rw [chunkVals_gt (by omega)]
    simp

theorem chunkParseF_of_all : ∀ (f : Nat) (p : Str), p.all isDig = true →
    chunkParseF f p = .ok (chunkValsF f p) := by
  intro f
  induction f with
  | zero =>
    intro p h
    simp only [chunkParseF, chunkValsF, parseChunk, if_pos h]
  | succ f ih =>
    intro p h
    simp only [chunkParseF, chunkValsF]
    by_cases h9 : p.length ≤ 9
    · rw [if_pos h9, if_pos h9]
      simp only [parseChunk, if_pos h]
    · rw [if_neg h9, if_neg h9]
      have hd : (p.drop (p.length - 9)).all isDig = true :=
        all_of_subset (List.drop_subset _ _) h
      have ht : (p.take (p.length - 9)).all isDig = true :=
        all_of_subset (List.take_subset _ _) h
      simp only [parseChunk, if_pos hd, ih (p.take (p.length - 9)) ht]

theorem chunkParse_of_all (p : Str) (h : p.all isDig = true) :
    chunkParse p = .ok (chunkVals p) :=
  chunkParseF_of_all p.length p h

theorem pad9_chunk (c : Str) (hdig : c.all isDig = true) (hlen : c.length = 9) :
    pad9 (natToChars (valOf c)) = c := by
  set pz : Nat → Bool := fun x => decide (x = 48) with hpz
  have hsplit : c.takeWhile pz ++ c.dropWhile pz = c :=
    List.takeWhile_append_dropWhile pz c
  set r := c.dropWhile pz with hr
  set k := (c.takeWhile pz).length with hk
  have htw : c.takeWhile pz = List.replicate k 48 := by
    rw [List.eq_replicate_iff]
    refine ⟨rfl, fun b hb => ?_⟩
    have := List.mem_takeWhile_imp hb
    simpa [hpz] using this
  have hval : valOf c = valOf r := by
    conv_lhs => rw [← hsplit, htw]
    exact valOf_replicate_zero_append k r
  have hklen : k + r.length = 9 := by
    have := congrArg List.length hsplit
    simp at this
    omega
  by_cases hre : r = []
  · have hc9 : c = List.replicate 9 48 := by
      rw [← hsplit, htw, hre, List.append_nil]
      have : k = 9 := by
        rw [hre] at hklen
        simpa using hklen
      rw [this]
    have hv0 : valOf c = 0 := by
      rw [hval, hre]
      rfl
    rw [hv0]
    have h1 : natToChars 0 = [48] := by
      simpa using natToChars_lt (by omega : (0 : Nat) < 10)
    rw [h1, pad9, if_pos (by simp)]
    rw [hc9]
    have : (9 : Nat) - ([48] : Str).length = 8 := by simp
    rw [this]
    have : List.replicate 8 48 ++ [48] = List.replicate 9 (48 : Nat) := by
      rw [← List.replicate_succ' 8 (48 : Nat)]
    rw [this]
  · have hrdig : r.all isDig = true := dropWhile_zero_all hdig
    have hrhd : r.headD 0 ≠ 48 := dropWhile_zero_headD hre
    have hnat : natToChars (valOf r) = r := natToChars_valOf r hre hrdig hrhd
    rw [hval, hnat, pad9]
    by_cases hrl : r.length < 9
    · rw [if_pos hrl]
      have hk9 : 9 - r.length = k := by omega
      rw [hk9, ← htw, hsplit]
    · rw [if_neg hrl]
      have hk0 : k = 0 := by omega
      rw [hk0] at htw
      rw [← hsplit, htw]
      simp

theorem headD_take (p : Str) (k : Nat) (hk : 1 ≤ k) :
    (p.take k).headD 0 = p.headD 0 := by
  cases p with
  | nil => simp
  | cons x xs =>
    cases k with
    | zero => omega
    | succ k => simp [List.take]

theorem printTail_append_singleton (a : List Nat) (v : Nat) :
    printTail (a ++ [v]) = printTail a ++ pad9 (natToChars v) := by
  simp [printTail, List.foldl_append]

theorem valOf_pos_of_headD {p : Str} (hne : p ≠ []) (hdig : p.all isDig = true)
    (hhd : p.headD 0 ≠ 48) : 1 ≤ valOf p := by
  cases p with
  | nil => exact absurd rfl hne
  | cons c t =>
    have hcd : isDig c = true := by
      rw [List.all_cons, Bool.and_eq_true] at hdig
      exact hdig.1
    simp [isDig] at hcd
    simp at hhd
    exact valOf_head_pos c t (by omega)

theorem chunkVals_getLastD_pos :
    ∀ (n : Nat) (p : Str), p.length ≤ n → p ≠ [] → p.all isDig = true →
      p.headD 0 ≠ 48 → 1 ≤ (chunkVals p).getLastD 0 := by
  intro n
  induction n with
  | zero =>
    intro p hlen hne _ _
    cases p with
    | nil => exact absurd rfl hne
    | cons c t => simp at hlen
  | succ n ih =>
    intro p hlen hne hdig hhd
    by_cases h9 : p.length ≤ 9
    · rw [chunkVals_le h9]
      simpa using valOf_pos_of_headD hne hdig hhd
    · rw [chunkVals_gt (by omega)]
      set q := p.take (p.length - 9) with hq
      have hql : q.length = p.length - 9 := by
        rw [hq, List.length_take]
        omega
      have hqne : q ≠ [] := by
        intro h0
        rw [h0] at hql
        simp at hql
        omega
      have hqd : q.all isDig = true := all_of_subset (List.take_subset _ _) hdig
      have hqh : q.headD 0 = p.headD 0 := headD_take p (p.length - 9) (by omega)
      have hL := ih q (by omega) hqne hqd (by rw [hqh]; exact hhd)
      have hLne : chunkVals q ≠ [] := chunkVals_ne_nil q
      rw [List.getLastD_cons]
      rw [getLastD_irrel hLne (valOf (p.drop (p.length - 9))) 0]
      exact hL

theorem print_chunkVals :
    ∀ (n : Nat) (p : Str), p.length ≤ n → p ≠ [] → p.all isDig = true →
      p.headD 0 ≠ 48 →
      natToChars ((chunkVals p).getLastD 0) ++
        printTail (chunkVals p).dropLast.reverse = p := by
  intro n
  induction n with
  | zero =>
    intro p hlen hne _ _
    cases p with
    | nil => exact absurd rfl hne
    | cons c t => simp at hlen
  | succ n ih =>
    intro p hlen hne hdig hhd
    by_cases h9 : p.length ≤ 9
    · rw [chunkVals_le h9]
      simp only [List.getLastD_cons, List.getLastD_nil, List.dropLast_single,
        List.reverse_nil]
      have hpt : printTail [] = [] := rfl
      rw [hpt, List.append_nil]
      exact natToChars_valOf p hne hdig hhd
    · rw [chunkVals_gt (by omega)]
      have hplen : ¬ p.length ≤ 9 := h9
      set q := p.take (p.length - 9) with hq
      set c := p.drop (p.length - 9) with hc
      have hql : q.length = p.length - 9 := by
        rw [hq, List.length_take]
        omega
      have hcl : c.length = 9 := by
        rw [hc, List.length_drop]
        omega
      have hqne : q ≠ [] := by
        intro h0
        rw [h0] at hql
        simp at hql
        omega
      have hqd : q.all isDig = true := all_of_subset (List.take_subset _ _) hdig
      have hcd : c.all isDig = true := all_of_subset (List.drop_subset _ _) hdig
      have hqh : q.headD 0 = p.headD 0 := headD_take p (p.length - 9) (by omega)
      have hih := ih q (by omega) hqne hqd (by rw [hqh]; exact hhd)
      have hLne : chunkVals q ≠ [] := chunkVals_ne_nil q
      obtain ⟨y, L2, hy⟩ : ∃ y L2, chunkVals q = y :: L2 := by
        cases hL : chunkVals q with
        | nil => exact absurd hL hLne
        | cons y L2 => exact ⟨y, L2, rfl⟩
      rw [hy] at hih ⊢
      rw [List.getLastD_cons, getLastD_irrel (l := y :: L2) (by simp) (valOf c) 0,
        List.dropLast_cons₂, List.reverse_cons, printTail_append_singleton,
        ← List.append_assoc, hih, pad9_chunk c hcd hcl]
      exact List.take_append_drop _ p

theorem btoString_of_limbs (l : List Nat) (neg : Bool) (hne : l ≠ [])
    (hpos : 1 ≤ l.getLastD 0) :
    btoString ⟨l, neg⟩ =
      (if neg then [ch '-'] else []) ++
        (natToChars (l.getLastD 0) ++ printTail l.dropLast.reverse) := by
  have hz : isZero ⟨l, neg⟩ = false := by
    simp only [isZero, decide_eq_false_iff_not]
    intro h0
    rw [h0] at hpos
    simp at hpos
  rw [btoString, if_neg (by rw [hz]; simp), List.append_assoc]

theorem bfromDigits_roundtrip (neg : Bool) (p0 : Str)
    (hdig : p0.all isDig = true) :
    (resToOption (bfromDigits neg p0)).map btoString =
      some (if p0.dropWhile (fun c => decide (c = 48)) = [] then [48]
            else (if neg then [ch '-'] else []) ++
              p0.dropWhile (fun c => decide (c = 48))) := by
  set p := p0.dropWhile (fun c => decide (c = 48)) with hp
  by_cases hpe : p = []
  · rw [bfromDigits]
    simp only [← hp]
    rw [if_pos hpe, if_pos hpe]
    rfl
  · have hpd : p.all isDig = true := dropWhile_zero_all hdig
    have hph : p.headD 0 ≠ 48 := dropWhile_zero_headD hpe
    have hcp : chunkParse p = .ok (chunkVals p) := chunkParse_of_all p hpd
    have hpos : 1 ≤ (chunkVals p).getLastD 0 :=
      chunkVals_getLastD_pos p.length p le_rfl hpe hpd hph
    have htrim : btrim ⟨chunkVals p, neg⟩ = ⟨chunkVals p, neg⟩ :=
      btrim_eq_self (chunkVals_ne_nil p) (by omega)
    rw [bfromDigits]
    simp only [← hp]
    rw [if_neg hpe, hcp]
    show Option.map btoString
        (resToOption (Result.ok (btrim ⟨chunkVals p, neg⟩))) = _
    rw [htrim]
    show some (btoString ⟨chunkVals p, neg⟩) = _
    rw [if_neg hpe, btoString_of_limbs (chunkVals p) neg (chunkVals_ne_nil p) hpos,
      print_chunkVals p.length p le_rfl hpe hpd hph]

/-! ### Claim theorems -/

/-- C1: the claim says `unsigned_div_mod(a, b)` returns `(q, r)` with
`a = q*b + r` and `0 <= r < b` for every magnitude `a` and nonzero `b`.
The code violates this: on the one-limb magnitudes 7 and 2 the quotient
vector is sized `m - n + 1 = 0` limbs, the main loop never runs, and the
kernel returns `(0, 0)` even though `7 ≠ 0*2 + 0`. -/
theorem C1_divmod_violated_at_seven_two :
    unsignedDivMod (mkU64 7) (mkU64 2) =
      some (⟨[0], false⟩, ⟨[0], false⟩) ∧
    bvalue (mkU64 7) ≠
      bvalue (⟨[0], false⟩ : BigIntR) * bvalue (mkU64 2) +
        bvalue (⟨[0], false⟩ : BigIntR) := by
  constructor
  · decide
  · decide

/-- C2: the claim says `(a / b) * b + (a % b) == a` for every `a` and
nonzero `b`.  The code violates this at `a = 7`, `b = 2`: both `7 / 2` and
`7 % 2` evaluate to 0, so the left side is 0 while `a` is 7. -/
theorem C2_division_identity_violated_at_seven_two :
    (do
      let q ← bdiv (mkI64 7) (mkI64 2)
      let r ← bmod (mkI64 7) (mkI64 2)
      pure (badd (bmul q (mkI64 2)) r)) = some (mkI64 0) ∧
    mkI64 0 ≠ mkI64 7 := by
  constructor
  · decide
  · decide

/-- C3: the claim says `BigInt::pow` computes the mathematical power and in
particular `BigInt(2).pow(10) == BigInt(1024)`.  The code violates this:
the square-and-multiply loop halves the exponent with the broken kernel
division, which maps 10 / 2 to 0, so the loop stops after one iteration
and `BigInt(2).pow(10)` evaluates to 1. -/
theorem C3_pow_two_ten_is_one :
    bpow (mkI64 2) (mkI64 10) 100 = some (.ok (mkI64 1)) ∧
    mkI64 1 ≠ mkI64 1024 := by
  constructor
  · decide
  · decide

/-- C4: the claim says `Decimal::div(other, n)` truncates the exact
quotient to `n` fractional digits, with
`Decimal::from("10").div(Decimal::from("3"), 2).to_string() == "3.33"`.
The code violates this: parsing yields the decimals `(10, 0)` and
`(3, 0)` (the first one even unnormalized), the `10^2` scale factor is
computed as 1 by the broken `fast_pow_unsigned`, and the BigInt division
`10 / 3` yields 0, so the result is the decimal 0 and prints `"0"`. -/
theorem C4_decimal_div_ten_three_is_zero :
    dfromString 100 (strOf "10") = some (.ok ⟨mkI64 10, 0⟩) ∧
    dfromString 100 (strOf "3") = some (.ok ⟨mkI64 3, 0⟩) ∧
    ddivD 100 ⟨mkI64 10, 0⟩ ⟨mkI64 3, 0⟩ 2 = some ⟨mkI64 0, 0⟩ ∧
    dtoString ⟨mkI64 0, 0⟩ ≠ strOf "3.33" := by
  refine ⟨by decide, by decide, by decide, by decide⟩

/-- C5: the claim says `Decimal::div_round(other, n)` rounds the exact
quotient half-up away from zero, with
`Decimal::from("10").div_round(Decimal::from("3"), 0).to_string() == "3"`.
The code violates this: the inner `div(other, 1)` computes `100 / 3` with
the broken kernel and yields the decimal 0, whose rendering `"0"` has no
decimal point, so `div_round` returns the decimal 0 instead of 3. -/
theorem C5_div_round_ten_three_is_zero :
    divRound 100 ⟨mkI64 10, 0⟩ ⟨mkI64 3, 0⟩ 0 = some ⟨mkI64 0, 0⟩ ∧
    dtoString ⟨mkI64 0, 0⟩ ≠ strOf "3" := by
  constructor
  · decide
  · decide

/-- C6: the claim says the remainder follows the dividend's sign, with
`BigInt(-7) % BigInt(2) == BigInt(-1)` and `BigInt(7) % BigInt(-2) ==
BigInt(1)`.  The code violates this: the kernel returns remainder 0 for
`|7| divmod |2|`, so both expressions evaluate to 0. -/
theorem C6_remainder_sign_examples_are_zero :
    bmod (mkI64 (-7)) (mkI64 2) = some (mkI64 0) ∧
    bmod (mkI64 7) (mkI64 (-2)) = some (mkI64 0) ∧
    mkI64 0 ≠ mkI64 (-1) ∧ mkI64 0 ≠ mkI64 1 := by
  refine ⟨by decide, by decide, by decide, by decide⟩

/-- C7: the claim says every Decimal produced by a public constructor or
operation is normalized (nonzero mantissa not divisible by 10).  The code
violates this: `Decimal::from_string("10")` returns the decimal with
mantissa 10 and exponent 0, because the broken kernel computes
`10 % 10 == 10`, so `normalize` stops immediately even though the mantissa
10 is divisible by 10. -/
theorem C7_from_string_ten_is_unnormalized :
    dfromString 100 (strOf "10") = some (.ok ⟨mkI64 10, 0⟩) ∧
    isZero (mkI64 10) = false ∧
    bvalue (mkI64 10) % 10 = 0 := by
  refine ⟨by decide, by decide, by decide⟩

/-- C8: the claim says every limb index used inside the main loop of
`unsigned_div_mod` stays in bounds, even for a single-limb divisor.  The
code violates this: for the dividend `10^9` (limbs `[0, 1]`) and the
single-limb divisor 2, the main loop runs with `n = 1` and the
trial-quotient correction reads `v[n-2]` and `u[j+n-2]`, whose `size_t`
index wraps to `2^64 - 1`, far outside both vectors. -/
theorem C8_single_limb_divisor_reads_out_of_bounds :
    isZero (mkU64 2) = false ∧
    absLess (mkU64 1000000000) (mkU64 2) = false ∧
    divmodAccessOk (mkU64 1000000000) (mkU64 2) = false := by
  refine ⟨by decide, by decide, by decide⟩

/-- C9: the claim says `to_int64` returns the value for every BigInt in
the signed 64-bit range.  The code violates this on every non-negative
in-range input: that branch checks the range and converts, but omits the
`return`, so no value is produced — modelled as `none` — while the
negative branch (including the signed minimum) works. -/
theorem C9_to_int64_drops_nonnegative_result :
    toInt64 (mkI64 5) = none ∧
    toInt64 (mkI64 (-5)) = some (.ok (-5)) ∧
    toInt64 (mkI64 (-9223372036854775808)) =
      some (.ok (-9223372036854775808)) := by
  refine ⟨by decide, by decide, by decide⟩

/-- C10: for every valid decimal literal (optional leading minus sign
followed by digits), `BigInt::from_string` succeeds and `to_string` of the
result reproduces the literal with leading zeros stripped and the sign
normalized (`"007"` prints as `"7"`, `"-0"` prints as `"0"`). -/
theorem C10_parse_format_roundtrip (s : Str) (hv : validLiteral s = true) :
    (resToOption (bfromString s)).map btoString = some (specCanonical s) := by
  cases s with
  | nil => simp [validLiteral] at hv
  | cons c0 rest =>
    by_cases hc : c0 = ch '-'
    · rw [validLiteral] at hv
      rw [if_pos hc, Bool.and_eq_true, decide_eq_true_iff] at hv
      obtain ⟨hne, hdig⟩ := hv
      subst hc
      cases rest with
      | nil => exact absurd rfl hne
      | cons r rs =>
        have hb : bfromString (ch '-' :: r :: rs) = bfromDigits true (r :: rs) := rfl
        rw [hb, bfromDigits_roundtrip true (r :: rs) hdig, specCanonical]
        by_cases hz : (r :: rs).dropWhile (fun c => decide (c = 48)) = []
        · simp [hz]
        · simp [hz]
    · rw [validLiteral, if_neg hc] at hv
      have hb : bfromString (c0 :: rest) = bfromDigits false (c0 :: rest) := by
        cases rest with
        | nil => simp [bfromString, hc]
        | cons r rs => simp [bfromString, hc]
      rw [hb, bfromDigits_roundtrip false (c0 :: rest) hv]
      rw [specCanonical, if_neg hc]
      by_cases hz : (c0 :: rest).dropWhile (fun c => decide (c = 48)) = []
      · simp [hz]
      · simp [hz]

/-- Witness for C10 at the concrete literal `"-000123456789012345678"`
(a multi-limb value with leading zeros and a minus sign): the hypothesis
holds and parsing followed by formatting yields the canonical form. -/
theorem C10_parse_format_roundtrip_witness :
    validLiteral (strOf "-000123456789012345678") = true ∧
    (resToOption (bfromString (strOf "-000123456789012345678"))).map btoString =
      some (specCanonical (strOf "-000123456789012345678")) :=
  ⟨by decide, C10_parse_format_roundtrip (strOf "-000123456789012345678") (by decide)⟩

end KsLib

